import Mathlib

/-!
DogStatsdSink: key normalisation, flattening and emission.

A shallow embedding of `dogstatsd.go`.

* A Go `string` is a Lean `String` (a sequence of Unicode characters).
* A Go `[]string` is a `List String`.  Where the source updates a slice in
  place (`parseKey`), the backing array and the slice length are tracked
  separately, so that stale array cells and out-of-range slice expressions
  are visible.
* A runtime panic is `none`.
* The `float32` values handed to the sink are kept abstract (a type
  parameter); `float64(val)` is exact and is identified with `val`, and the
  conversion `int64(val)` is a parameter.
-/

set_option autoImplicit false

namespace strings

/-- Go `strings.Join(elems, sep)`. -/
def Join (elems : List String) (sep : String) : String :=
  sep.intercalate elems

/-- Go `strings.Map(mapping, s)` for a mapping that never returns a negative
rune: every character of `s` is replaced by its image. -/
def Map (mapping : Char → Char) (s : String) : String :=
  String.mk (s.data.map mapping)

end strings

namespace metrics

/-- The fields of `DogStatsdSink` read by the methods: `client.Tags`, the
hostname getter and the tagging flag. -/
structure DogStatsdSink where
  clientTags : List String
  hostnameGetter : Unit → String
  enableHostnameTagging : Bool

/-- The rune mapping passed to `strings.Map` in `flattenKey`. -/
def flattenRune (r : Char) : Char :=
  if r = ':' then '_'
  else if r = ' ' then '_'
  else r

/-- Source `flattenKey`: join with "." and map the runes of the joined string. -/
def flattenKey (parts : List String) : String :=
  let joined := strings.Join parts "."
  strings.Map flattenRune joined

/-- The Go expression `append(key[:i], key[i+1:]...)` on a slice of length `len`
over the backing array `arr`.  `key[:i]` is in range because `i` never exceeds
the capacity; `key[i+1:]` panics when `i + 1 > len`.  Otherwise the cells
`i+1 .. len-1` are copied down by one, the cells from `len-1` on keep their
old contents, and the new slice has length `len - 1`. -/
def spliceAt (arr : List String) (len i : Nat) : Option (List String × Nat) :=
  if i + 1 ≤ len then
    some (arr.take i ++ (arr.drop (i + 1)).take (len - (i + 1)) ++ arr.drop (len - 1),
          len - 1)
  else none

/-- The loop `for i, el := range key` of `parseKey`, with `n` iterations left,
loop index `i`, backing array `arr` and current slice length `len`.  The range
expression was evaluated once, so the trip count is fixed; `el` is read from
the backing array at each iteration. -/
def spliceLoop (hostName : String) : Nat → Nat → List String → Nat → Option (List String × Nat)
  | 0, _, arr, len => some (arr, len)
  | n + 1, i, arr, len =>
    if arr.getD i "" = hostName then
      match spliceAt arr len i with
      | none => none
      | some (arr', len') => spliceLoop hostName n (i + 1) arr' len'
    else spliceLoop hostName n (i + 1) arr len

/-- Source `parseKey`: returns `(key, tags)`, or `none` when the loop panics. -/
def parseKey (s : DogStatsdSink) (key : List String) : Option (List String × List String) :=
  let hostName := s.hostnameGetter ()
  match spliceLoop hostName key.length 0 key key.length with
  | none => none
  | some (arr, len) =>
    let tags : List String :=
      if s.enableHostnameTagging then [] ++ ["host:" ++ hostName] else []
    some (arr.take len, tags)

/-- Follows the spec's words (design notes): the one-pass filter that copies the
elements whose value does not equal the hostname.  It is the reference the
in-place loop of `parseKey` is compared with. -/
def filterKeySpec (hostName : String) (key : List String) : List String :=
  key.filter (fun el => decide (el ≠ hostName))

/-- A call received by the transport client (`*statsd.Client`): the method
called and its arguments `(name, value, tags, rate)`.  `V` is the type of the
floating-point values. -/
inductive Call (V : Type) where
  | Gauge (name : String) (value : V) (tags : List String) (rate : ℚ)
  | Count (name : String) (value : Int) (tags : List String) (rate : ℚ)
  | TimeInMilliseconds (name : String) (value : V) (tags : List String) (rate : ℚ)

/-- What a method of the sink can affect outside itself: the calls issued to
the transport client so far (oldest first) and the number of times the
hostname getter has been invoked. -/
structure World (V : Type) where
  calls : List (Call V)
  hostnameLookups : Nat

/-- Source `SetGauge`.  `parseKey` invokes the hostname getter once; a panic in
`parseKey` propagates to the caller before any call to the client. -/
def SetGauge {V : Type} (s : DogStatsdSink) (key : List String) (val : V) (w : World V) :
    Option (World V) :=
  match parseKey s key with
  | none => none
  | some (key', tags) =>
    let flatKey := flattenKey key'
    let rate : ℚ := 1
    some ⟨w.calls ++ [Call.Gauge flatKey val tags rate], w.hostnameLookups + 1⟩

/-- Source `IncrCounter`; `toInt64` is the Go conversion `int64(val)`. -/
def IncrCounter {V : Type} (toInt64 : V → Int) (s : DogStatsdSink) (key : List String)
    (val : V) (w : World V) : Option (World V) :=
  match parseKey s key with
  | none => none
  | some (key', tags) =>
    let flatKey := flattenKey key'
    let rate : ℚ := 1
    some ⟨w.calls ++ [Call.Count flatKey (toInt64 val) tags rate], w.hostnameLookups + 1⟩

/-- Source `EmitKey`: the body is empty.  Returns the world and the contents of
the caller's key after the call. -/
def EmitKey {V : Type} (_s : DogStatsdSink) (key : List String) (_val : V) (w : World V) :
    World V × List String :=
  (w, key)

/-- Source `AddSample`. -/
def AddSample {V : Type} (s : DogStatsdSink) (key : List String) (val : V) (w : World V) :
    Option (World V) :=
  match parseKey s key with
  | none => none
  | some (key', tags) =>
    let flatKey := flattenKey key'
    let rate : ℚ := 1
    some ⟨w.calls ++ [Call.TimeInMilliseconds flatKey val tags rate], w.hostnameLookups + 1⟩

/-- Modelled from the spec: the tag suffix of a wire line produced by the
transport client, which is not part of this repository: `|#tag1,tag2,...`,
omitted when the tag set is empty. -/
def tagSuffix (tags : List String) : String :=
  match tags with
  | [] => ""
  | _ :: _ => "|#" ++ ",".intercalate tags

/-- Modelled from the spec: the line the transport client (not part of this
repository) puts on the wire for one call at sample rate 1.0,
`<flatKey>:<value>|<typeCode>[|#<tag1>,<tag2>,...]` with type codes `g`, `c`
and `ms`, the client's static tags first and the tags of the call after them.
`render` is the client's six-decimal rendering of a floating-point value;
counter values render as integers. -/
def wireLine {V : Type} (render : V → String) (staticTags : List String) : Call V → String
  | Call.Gauge name value tags _ =>
    name ++ ":" ++ render value ++ "|g" ++ tagSuffix (staticTags ++ tags)
  | Call.Count name value tags _ =>
    name ++ ":" ++ toString value ++ "|c" ++ tagSuffix (staticTags ++ tags)
  | Call.TimeInMilliseconds name value tags _ =>
    name ++ ":" ++ render value ++ "|ms" ++ tagSuffix (staticTags ++ tags)

/-- The wire lines of all calls issued so far, oldest first. -/
def emittedLines {V : Type} (render : V → String) (s : DogStatsdSink) (w : World V) :
    List String :=
  w.calls.map (wireLine render s.clientTags)

/-- Test constant `TestHostname`. -/
def TestHostname : String := "test_hostname"

/-- Test helper `MockGetHostname`. -/
def MockGetHostname : Unit → String := fun _ => TestHostname

/-- Test helper `MockNewDogStatsdSink`: a sink with the given static tags and
tagging flag whose hostname getter is `MockGetHostname`. -/
def MockNewDogStatsdSink (tags : List String) (tagWithHostname : Bool) : DogStatsdSink :=
  ⟨tags, MockGetHostname, tagWithHostname⟩

/-- Six-decimal rendering of a whole non-negative value, as in the wire lines
of the test table (`42` renders as `42.000000`). -/
def renderWhole (n : Nat) : String :=
  toString n ++ ".000000"

end metrics

namespace metrics

/-! ## The splice loop -/

theorem spliceLoop_no_match (h : String) (n : Nat) :
    ∀ (i : Nat) (arr : List String) (len : Nat),
      (∀ j, i ≤ j → j < i + n → arr.getD j "" ≠ h) →
      spliceLoop h n i arr len = some (arr, len) := by
  induction n with
  | zero => intro i arr len _; rfl
  | succ n ih =>
    intro i arr len hne
    have h0 : arr.getD i "" ≠ h := hne i (le_refl i) (by omega)
    rw [spliceLoop, if_neg h0]
    exact ih (i + 1) arr len (fun j h1 h2 => hne j (by omega) (by omega))

theorem spliceAt_live (arr : List String) (len i : Nat) (arr' : List String) (len' : Nat)
    (hlen : len ≤ arr.length) (hs : spliceAt arr len i = some (arr', len')) :
    i < len ∧ len' + 1 = len ∧ arr'.length = arr.length ∧
      arr'.take len' = (arr.take len).eraseIdx i := by
  unfold spliceAt at hs
  split at hs
  · rename_i hi
    simp only [Option.some.injEq, Prod.mk.injEq] at hs
    obtain ⟨h1, h2⟩ := hs
    subst h1 h2
    refine ⟨by omega, by omega, ?_, ?_⟩
    · simp only [List.length_append, List.length_take, List.length_drop]
      omega
    · rw [List.eraseIdx_eq_take_drop_succ]
      have e1 : (List.take i arr ++ List.take (len - (i + 1)) (List.drop (i + 1) arr)).length
          = len - 1 := by
        simp only [List.length_append, List.length_take, List.length_drop]
        omega
      rw [List.take_append_eq_append_take, e1]
      simp only [Nat.sub_self, List.take_zero, List.append_nil]
      rw [List.take_of_length_le (by rw [e1])]
      congr 1
      · rw [List.take_take]; congr 1; omega
      · rw [List.drop_take]
  · exact absurd hs (by simp)

theorem filter_eraseIdx_of_not (p : String → Bool) :
    ∀ (l : List String) (i : Nat), p (l.getD i "") = false →
      (l.eraseIdx i).filter p = l.filter p := by
  intro l
  induction l with
  | nil => intro i _; rfl
  | cons a l ih =>
    intro i hp
    cases i with
    | zero =>
      simp only [List.getD_cons_zero] at hp
      simp [List.filter_cons, hp]
    | succ i =>
      simp only [List.getD_cons_succ] at hp
      simp only [List.eraseIdx_cons_succ, List.filter_cons, ih i hp]

theorem spliceLoop_only_drops (h : String) (n : Nat) :
    ∀ (i : Nat) (arr : List String) (len : Nat) (arr' : List String) (len' : Nat),
      len ≤ arr.length →
      spliceLoop h n i arr len = some (arr', len') →
      len' ≤ arr'.length ∧ (arr'.take len').Sublist (arr.take len) ∧
        (arr'.take len').filter (fun el => decide (el ≠ h))
          = (arr.take len).filter (fun el => decide (el ≠ h)) := by
  induction n with
  | zero =>
    intro i arr len arr' len' hlen hs
    simp only [spliceLoop, Option.some.injEq, Prod.mk.injEq] at hs
    obtain ⟨h1, h2⟩ := hs
    subst h1 h2
    exact ⟨hlen, List.Sublist.refl _, rfl⟩
  | succ n ih =>
    intro i arr len arr' len' hlen hs
    rw [spliceLoop] at hs
    split at hs
    · rename_i hel
      cases hsp : spliceAt arr len i with
      | none => rw [hsp] at hs; exact absurd hs (by simp)
      | some r =>
        obtain ⟨arr1, len1⟩ := r
        rw [hsp] at hs
        obtain ⟨hi, hl1, hlen1, htake⟩ := spliceAt_live arr len i arr1 len1 hlen hsp
        obtain ⟨g1, g2, g3⟩ := ih (i + 1) arr1 len1 arr' len' (by omega) hs
        rw [htake] at g2 g3
        refine ⟨g1, g2.trans (List.eraseIdx_sublist _ _), ?_⟩
        rw [g3]
        apply filter_eraseIdx_of_not
        have : (List.take len arr).getD i "" = arr.getD i "" := by
          simp [List.getD_eq_getElem?_getD, List.getElem?_take, hi]
        rw [this, hel]
        simp
    · exact ih (i + 1) arr len arr' len' hlen hs

theorem getD_append_cons_length (P : List String) (x : String) (B : List String) :
    (P ++ x :: B).getD P.length "" = x := by
  induction P with
  | nil => rfl
  | cons p P ih => simpa using ih

theorem stale_tail_mem (h : String) (B : List String) :
    ∀ x ∈ (B ++ (h :: B).drop B.length).drop 1, x ∈ B := by
  intro x hx
  cases B with
  | nil => simp at hx
  | cons b B' =>
    simp only [List.cons_append, List.drop_succ_cons, List.drop_zero, List.length_cons,
      List.mem_append] at hx
    rcases hx with hx | hx
    · exact List.mem_cons_of_mem _ hx
    · exact List.mem_of_mem_drop hx

theorem spliceLoop_at_match (h : String) (P B : List String) (hB : h ∉ B) :
    spliceLoop h (B.length + 1) P.length (P ++ h :: B) (P ++ h :: B).length
      = some (P ++ B ++ (h :: B).drop B.length, (P ++ h :: B).length - 1) := by
  have hget : (P ++ h :: B).getD P.length "" = h := getD_append_cons_length P h B
  have hsp : spliceAt (P ++ h :: B) (P ++ h :: B).length P.length
      = some (P ++ B ++ (h :: B).drop B.length, (P ++ h :: B).length - 1) := by
    unfold spliceAt
    rw [if_pos (by simp)]
    congr 2
    have e1 : (P ++ h :: B).length - (P.length + 1) = B.length := by
      simp only [List.length_append, List.length_cons]; omega
    have e2 : (P ++ h :: B).length - 1 = P.length + B.length := by
      simp only [List.length_append, List.length_cons]; omega
    rw [e1, e2, List.take_left, List.drop_append]
    simp [List.drop_append]
  rw [spliceLoop, if_pos hget, hsp]
  apply spliceLoop_no_match
  intro j hj1 hj2
  have hlen : (P ++ B ++ (h :: B).drop B.length).length = P.length + B.length + 1 := by
    simp only [List.length_append, List.length_drop, List.length_cons]; omega
  have hj : j < (P ++ B ++ (h :: B).drop B.length).length := by omega
  have hmem : (P ++ B ++ (h :: B).drop B.length).getD j "" ∈ B := by
    apply stale_tail_mem h B
    have hd : ((P ++ B ++ (h :: B).drop B.length).drop (P.length + 1))
        = (B ++ (h :: B).drop B.length).drop 1 := by
      rw [List.append_assoc, ← List.drop_drop, List.drop_left]
    rw [← hd, List.getD_eq_getElem?_getD, List.getElem?_eq_getElem hj, Option.getD_some]
    rw [List.mem_iff_getElem]
    refine ⟨j - (P.length + 1), by simp; omega, ?_⟩
    rw [List.getElem_drop]
    congr 1
    omega
  intro heq
  exact hB (heq ▸ hmem)

theorem spliceLoop_single (h : String) (B : List String) (hB : h ∉ B) :
    ∀ (A P : List String) (n i len : Nat) (arr : List String),
      h ∉ A → n = A.length + B.length + 1 → i = P.length →
      arr = P ++ A ++ h :: B → len = arr.length →
      ∃ arr', spliceLoop h n i arr len = some (arr', len - 1) ∧
        arr'.take (len - 1) = P ++ A ++ B := by
  intro A
  induction A with
  | nil =>
    intro P n i len arr _ hn hi harr hlen
    simp only [List.length_nil, Nat.zero_add, List.append_nil] at hn harr ⊢
    subst hn hi harr hlen
    refine ⟨_, spliceLoop_at_match h P B hB, ?_⟩
    have : (P ++ h :: B).length - 1 = (P ++ B).length := by simp
    rw [this, List.take_left]
  | cons a A ih =>
    intro P n i len arr hA hn hi harr hlen
    have ha : a ≠ h := fun e => hA (e ▸ List.mem_cons_self _ _)
    have hA' : h ∉ A := fun e => hA (List.mem_cons_of_mem _ e)
    have hn' : n = (A.length + B.length + 1) + 1 := by simp at hn; omega
    have hget : arr.getD i "" = a := by
      subst harr hi
      rw [List.append_assoc]
      exact getD_append_cons_length P a (A ++ h :: B)
    rw [hn', spliceLoop, hget, if_neg ha]
    have := ih (P ++ [a]) (A.length + B.length + 1) (i + 1) len arr hA' rfl
      (by simp [hi]) (by simp [harr]) hlen
    simpa using this

/-! ## parseKey -/

theorem parseKey_eq_of_loop (s : DogStatsdSink) (K arr : List String) (len : Nat)
    (hl : spliceLoop (s.hostnameGetter ()) K.length 0 K K.length = some (arr, len)) :
    parseKey s K = some (arr.take len,
      if s.enableHostnameTagging then ["host:" ++ s.hostnameGetter ()] else []) := by
  unfold parseKey
  simp only [hl, List.nil_append]

theorem parseKey_loop_of_some (s : DogStatsdSink) (K : List String)
    (r : List String × List String) (hr : parseKey s K = some r) :
    ∃ arr len, spliceLoop (s.hostnameGetter ()) K.length 0 K K.length = some (arr, len) ∧
      r = (arr.take len,
        if s.enableHostnameTagging then ["host:" ++ s.hostnameGetter ()] else []) := by
  cases hl : spliceLoop (s.hostnameGetter ()) K.length 0 K K.length with
  | none =>
    unfold parseKey at hr
    simp only [hl] at hr
    exact absurd hr (by simp)
  | some p =>
    obtain ⟨arr, len⟩ := p
    refine ⟨arr, len, rfl, ?_⟩
    rw [parseKey_eq_of_loop s K arr len hl] at hr
    exact (Option.some.inj hr).symm

theorem filterKeySpec_of_not_mem (h : String) (K : List String) (hK : h ∉ K) :
    filterKeySpec h K = K := by
  unfold filterKeySpec
  rw [List.filter_eq_self]
  intro a ha
  have : a ≠ h := fun e => hK (e ▸ ha)
  simpa using this

theorem filterKeySpec_single (h : String) (A B : List String) (hA : h ∉ A) (hB : h ∉ B) :
    filterKeySpec h (A ++ h :: B) = A ++ B := by
  have e1 := filterKeySpec_of_not_mem h A hA
  have e2 := filterKeySpec_of_not_mem h B hB
  unfold filterKeySpec at e1 e2 ⊢
  rw [List.filter_append, List.filter_cons, e1, e2]
  simp

theorem count_le_one_split (h : String) (A B : List String)
    (hc : (A ++ h :: B).count h ≤ 1) : h ∉ A ∧ h ∉ B := by
  rw [List.count_append, List.count_cons_self] at hc
  constructor
  · intro hm
    have := List.count_pos_iff.mpr hm
    omega
  · intro hm
    have := List.count_pos_iff.mpr hm
    omega

/-- When the hostname occurs at most once in the key, `parseKey` returns, with
the filtered key and the tags fixed by the tagging flag. -/
theorem parseKey_at_most_once (s : DogStatsdSink) (K : List String)
    (hc : K.count (s.hostnameGetter ()) ≤ 1) :
    parseKey s K = some (filterKeySpec (s.hostnameGetter ()) K,
      if s.enableHostnameTagging then ["host:" ++ s.hostnameGetter ()] else []) := by
  by_cases hm : s.hostnameGetter () ∈ K
  · obtain ⟨A, B, hK⟩ := List.append_of_mem hm
    subst hK
    obtain ⟨hA, hB⟩ := count_le_one_split _ A B hc
    obtain ⟨arr', hl, ht⟩ := spliceLoop_single (s.hostnameGetter ()) B hB A []
      (A ++ s.hostnameGetter () :: B).length 0 (A ++ s.hostnameGetter () :: B).length
      (A ++ s.hostnameGetter () :: B) hA
      (by simp only [List.length_append, List.length_cons]; omega) rfl rfl rfl
    rw [parseKey_eq_of_loop s _ arr' _ hl, ht, filterKeySpec_single _ A B hA hB]
    rfl
  · have hl := spliceLoop_no_match (s.hostnameGetter ()) K.length 0 K K.length
      (fun j _ hj heq => by
        apply hm
        have hj' : j < K.length := by omega
        rw [List.getD_eq_getElem?_getD, List.getElem?_eq_getElem hj', Option.getD_some] at heq
        exact heq ▸ List.getElem_mem hj')
    rw [parseKey_eq_of_loop s K K K.length hl, List.take_length,
      filterKeySpec_of_not_mem _ K hm]

/-- Whenever `parseKey` returns, the tags are fixed by the tagging flag alone. -/
theorem parseKey_tags (s : DogStatsdSink) (K k tags : List String)
    (hr : parseKey s K = some (k, tags)) :
    tags = if s.enableHostnameTagging then ["host:" ++ s.hostnameGetter ()] else [] := by
  obtain ⟨arr, len, _, he⟩ := parseKey_loop_of_some s K (k, tags) hr
  exact (Prod.mk.inj he).2

/-! ## flattenKey -/

theorem flattenRune_eq (c : Char) :
    flattenRune c = if c = ':' ∨ c = ' ' then '_' else c := by
  unfold flattenRune
  by_cases h1 : c = ':'
  · simp [h1]
  · by_cases h2 : c = ' '
    · simp [h2]
    · simp [h1, h2]

theorem flattenRune_ne_colon (c : Char) : flattenRune c ≠ ':' := by
  unfold flattenRune
  split
  · decide
  · split
    · decide
    · assumption

theorem flattenRune_ne_space (c : Char) : flattenRune c ≠ ' ' := by
  unfold flattenRune
  split
  · decide
  · split
    · decide
    · assumption

/-! ## Emission -/

theorem SetGauge_of_parseKey {V : Type} (s : DogStatsdSink) (K k tags : List String)
    (val : V) (w : World V) (hr : parseKey s K = some (k, tags)) :
    SetGauge s K val w
      = some ⟨w.calls ++ [Call.Gauge (flattenKey k) val tags 1], w.hostnameLookups + 1⟩ := by
  unfold SetGauge
  simp only [hr]

theorem IncrCounter_of_parseKey {V : Type} (toInt64 : V → Int) (s : DogStatsdSink)
    (K k tags : List String) (val : V) (w : World V) (hr : parseKey s K = some (k, tags)) :
    IncrCounter toInt64 s K val w
      = some ⟨w.calls ++ [Call.Count (flattenKey k) (toInt64 val) tags 1],
          w.hostnameLookups + 1⟩ := by
  unfold IncrCounter
  simp only [hr]

theorem AddSample_of_parseKey {V : Type} (s : DogStatsdSink) (K k tags : List String)
    (val : V) (w : World V) (hr : parseKey s K = some (k, tags)) :
    AddSample s K val w
      = some ⟨w.calls ++ [Call.TimeInMilliseconds (flattenKey k) val tags 1],
          w.hostnameLookups + 1⟩ := by
  unfold AddSample
  simp only [hr]

theorem tagSuffix_append_singleton (T : List String) (t : String) :
    tagSuffix (T ++ [t]) = "|#" ++ ",".intercalate (T ++ [t]) := by
  cases T with
  | nil => rfl
  | cons a T => rfl

/-! ## The claims -/

/-- C1 (code defect): on the key `[test_hostname, test_hostname, a]` the in-place
splice loop of `parseKey` returns `[test_hostname, a]`, while removing every
element equal to the hostname gives `[a]`: the second of two adjacent
occurrences is skipped. -/
theorem parseKey_adjacent_hostnames_not_removed :
    parseKey (MockNewDogStatsdSink [] false) ["test_hostname", "test_hostname", "a"]
        = some (["test_hostname", "a"], []) ∧
      filterKeySpec "test_hostname" ["test_hostname", "test_hostname", "a"] = ["a"] := by
  decide

/-- C2 (code defect): on the key `[test_hostname, test_hostname]` the loop of
`parseKey` panics.  After the first splice the slice has length 1 while cell 1
of the backing array still holds the hostname, so the second iteration
evaluates `key[2:]` on a slice of length 1, which is out of range. -/
theorem parseKey_repeated_hostname_panics :
    spliceAt ["test_hostname", "test_hostname"] 2 0
        = some (["test_hostname", "test_hostname"], 1) ∧
      spliceAt ["test_hostname", "test_hostname"] 1 1 = none ∧
      parseKey (MockNewDogStatsdSink [] false) ["test_hostname", "test_hostname"] = none := by
  decide

/-- C3 (code defect): with hostname tagging enabled, on the key
`[a, test_hostname, b, test_hostname]` `parseKey` panics in its loop and so
returns no tag sequence at all, not the sequence `[host:test_hostname]`. -/
theorem parseKey_tagging_enabled_panics :
    parseKey (MockNewDogStatsdSink [] true) ["a", "test_hostname", "b", "test_hostname"]
      = none := by
  decide

/-- C4: with hostname tagging disabled, for every key and hostname, `parseKey`
never returns a tag: whenever it returns, its tag sequence is empty, and it
does return (with the empty tag sequence) on every key in which the hostname
occurs at most once. -/
theorem parseKey_tagging_disabled_no_tags (s : DogStatsdSink) (K : List String)
    (hd : s.enableHostnameTagging = false) :
    (∀ k tags, parseKey s K = some (k, tags) → tags = []) ∧
      (K.count (s.hostnameGetter ()) ≤ 1 → ∃ k, parseKey s K = some (k, [])) := by
  constructor
  · intro k tags hr
    have := parseKey_tags s K k tags hr
    simpa [hd] using this
  · intro hc
    refine ⟨filterKeySpec (s.hostnameGetter ()) K, ?_⟩
    have := parseKey_at_most_once s K hc
    simpa [hd] using this

theorem parseKey_tagging_disabled_no_tags_witness :
    (MockNewDogStatsdSink [] false).enableHostnameTagging = false ∧
      ((∀ k tags, parseKey (MockNewDogStatsdSink [] false) ["a", "test_hostname", "b", "c"]
          = some (k, tags) → tags = []) ∧
        ((["a", "test_hostname", "b", "c"] : List String).count
            ((MockNewDogStatsdSink [] false).hostnameGetter ()) ≤ 1 →
          ∃ k, parseKey (MockNewDogStatsdSink [] false) ["a", "test_hostname", "b", "c"]
            = some (k, []))) :=
  ⟨rfl, parseKey_tagging_disabled_no_tags (MockNewDogStatsdSink [] false)
    ["a", "test_hostname", "b", "c"] rfl⟩

/-- C5: `flattenKey P` is the components of `P` joined with "." in which every
':' and every ' ' is replaced by '_' and every other character is unchanged at
its position; the result has the length of the joined string and contains
neither ':' nor ' '.  The two rows of the test table evaluate as expected. -/
theorem flattenKey_substitutes (P : List String) :
    (∀ i : Nat, (flattenKey P).data[i]?
        = ((strings.Join P ".").data[i]?).map
            (fun c => if c = ':' ∨ c = ' ' then '_' else c)) ∧
      (flattenKey P).length = (strings.Join P ".").length ∧
      ':' ∉ (flattenKey P).data ∧ ' ' ∉ (flattenKey P).data ∧
      flattenKey ["a", "b", "c"] = "a.b.c" ∧
      flattenKey ["spaces must", "flatten", "to", "underscores"]
        = "spaces_must.flatten.to.underscores" := by
  have hdata : (flattenKey P).data = (strings.Join P ".").data.map flattenRune := rfl
  refine ⟨?_, ?_, ?_, ?_, by decide, by decide⟩
  · intro i
    rw [hdata, List.getElem?_map]
    cases (strings.Join P ".").data[i]? with
    | none => rfl
    | some c => simp [flattenRune_eq]
  · show (flattenKey P).data.length = (strings.Join P ".").data.length
    rw [hdata, List.length_map]
  · rw [hdata]
    intro hm
    obtain ⟨c, _, hc⟩ := List.mem_map.mp hm
    exact flattenRune_ne_colon c hc
  · rw [hdata]
    intro hm
    obtain ⟨c, _, hc⟩ := List.mem_map.mp hm
    exact flattenRune_ne_space c hc

/-- C6 (code defect): on the key `[test_hostname, test_hostname]` each of
`SetGauge`, `IncrCounter` and `AddSample` aborts in `parseKey` and issues no
call to the transport client, for every value and every prior state. -/
theorem emission_repeated_hostname_no_call (V : Type) (toInt64 : V → Int) (v : V)
    (w : World V) :
    SetGauge (MockNewDogStatsdSink [] false) ["test_hostname", "test_hostname"] v w = none ∧
      IncrCounter toInt64 (MockNewDogStatsdSink [] false)
        ["test_hostname", "test_hostname"] v w = none ∧
      AddSample (MockNewDogStatsdSink [] false) ["test_hostname", "test_hostname"] v w
        = none := by
  have hp : parseKey (MockNewDogStatsdSink [] false) ["test_hostname", "test_hostname"]
      = none := by decide
  refine ⟨?_, ?_, ?_⟩
  · unfold SetGauge; simp only [hp]
  · unfold IncrCounter; simp only [hp]
  · unfold AddSample; simp only [hp]

/-- C7: for every key and value, `EmitKey` issues no call to the transport
client (so no line is put on the wire), does not invoke the hostname getter and
leaves the key as it was. -/
theorem EmitKey_no_effect (V : Type) (render : V → String) (s : DogStatsdSink)
    (key : List String) (val : V) (w : World V) :
    (EmitKey s key val w).1.calls = w.calls ∧
      emittedLines render s (EmitKey s key val w).1 = emittedLines render s w ∧
      (EmitKey s key val w).1.hostnameLookups = w.hostnameLookups ∧
      (EmitKey s key val w).2 = key :=
  ⟨rfl, rfl, rfl, rfl⟩

/-- C8: for a sink with static tags `T` and hostname tagging enabled with
hostname `h`, `SetGauge K v` on a key that does not contain `h` issues one call
whose wire line is `flattenKey K`, ":", the rendering of `v`, "|g|#", then the
tags of `T` in order followed by `host:h`, comma-separated. -/
theorem SetGauge_wire_line {V : Type} (render : V → String) (s : DogStatsdSink)
    (K : List String) (v : V) (w : World V)
    (ht : s.enableHostnameTagging = true) (hK : s.hostnameGetter () ∉ K) :
    ∃ w', SetGauge s K v w = some w' ∧
      emittedLines render s w' = emittedLines render s w ++
        [flattenKey K ++ ":" ++ render v ++ "|g|#"
          ++ ",".intercalate (s.clientTags ++ ["host:" ++ s.hostnameGetter ()])] := by
  have hc : K.count (s.hostnameGetter ()) ≤ 1 := by
    rw [List.count_eq_zero_of_not_mem hK]
    exact Nat.zero_le 1
  have hp := parseKey_at_most_once s K hc
  rw [filterKeySpec_of_not_mem _ K hK, if_pos ht] at hp
  refine ⟨_, SetGauge_of_parseKey s K K _ v w hp, ?_⟩
  simp only [emittedLines, List.map_append, List.map_cons, List.map_nil, wireLine,
    tagSuffix_append_singleton]
  congr 2
  have hcode : "|g" ++ "|#" = "|g|#" := by decide
  rw [String.append_assoc _ "|g" _, ← String.append_assoc "|g" "|#" _, hcode,
    ← String.append_assoc]

theorem SetGauge_wire_line_witness :
    ((MockNewDogStatsdSink ["my_tag:my_value", "other_tag:other_value"] true).enableHostnameTagging
        = true ∧
      (MockNewDogStatsdSink ["my_tag:my_value", "other_tag:other_value"] true).hostnameGetter ()
        ∉ ["foo", "bar"]) ∧
    (∃ w', SetGauge (MockNewDogStatsdSink ["my_tag:my_value", "other_tag:other_value"] true)
        ["foo", "bar"] 42 (World.mk [] 0) = some w' ∧
      emittedLines renderWhole
          (MockNewDogStatsdSink ["my_tag:my_value", "other_tag:other_value"] true) w'
        = ["foo.bar:42.000000|g|#my_tag:my_value,other_tag:other_value,host:test_hostname"]) :=
  ⟨⟨rfl, by decide⟩,
    SetGauge_wire_line renderWhole
      (MockNewDogStatsdSink ["my_tag:my_value", "other_tag:other_value"] true)
      ["foo", "bar"] 42 (World.mk [] 0) rfl (by decide)⟩

/-- C9: for every key in which the hostname occurs at most once, the in-place
splice loop of `parseKey` returns the key the one-pass filter returns: the key
itself when the hostname does not occur, and the key without its single
occurrence (the rest in order) when it occurs once, at any position. -/
theorem parseKey_refines_filter_at_most_once (s : DogStatsdSink) (K : List String)
    (hc : K.count (s.hostnameGetter ()) ≤ 1) :
    (parseKey s K).map Prod.fst = some (filterKeySpec (s.hostnameGetter ()) K) ∧
      (s.hostnameGetter () ∉ K → (parseKey s K).map Prod.fst = some K) ∧
      (∀ A B, K = A ++ s.hostnameGetter () :: B →
        (parseKey s K).map Prod.fst = some (A ++ B)) := by
  have hp := parseKey_at_most_once s K hc
  refine ⟨?_, ?_, ?_⟩
  · rw [hp]; rfl
  · intro hK
    rw [hp, filterKeySpec_of_not_mem _ K hK]; rfl
  · intro A B hAB
    subst hAB
    obtain ⟨hA, hB⟩ := count_le_one_split _ A B hc
    rw [hp, filterKeySpec_single _ A B hA hB]; rfl

theorem parseKey_refines_filter_at_most_once_witness :
    (["a", "test_hostname", "b", "c"] : List String).count
        ((MockNewDogStatsdSink [] false).hostnameGetter ()) ≤ 1 ∧
      (parseKey (MockNewDogStatsdSink [] false) ["a", "test_hostname", "b", "c"]).map Prod.fst
        = some ["a", "b", "c"] :=
  ⟨by decide,
    (parseKey_refines_filter_at_most_once (MockNewDogStatsdSink [] false)
      ["a", "test_hostname", "b", "c"] (by decide)).2.2 ["a"] ["b", "c"] rfl⟩

/-- C10: whenever `parseKey` returns, it has only dropped elements equal to the
hostname: the returned key is a subsequence of the input key, and the elements
different from the hostname are the same, in the same order, in both. -/
theorem parseKey_only_drops_hostname (s : DogStatsdSink) (K k tags : List String)
    (hr : parseKey s K = some (k, tags)) :
    k.Sublist K ∧
      k.filter (fun el => decide (el ≠ s.hostnameGetter ()))
        = K.filter (fun el => decide (el ≠ s.hostnameGetter ())) := by
  obtain ⟨arr, len, hl, he⟩ := parseKey_loop_of_some s K (k, tags) hr
  obtain ⟨_, g2, g3⟩ := spliceLoop_only_drops (s.hostnameGetter ()) K.length 0 K K.length
    arr len (le_refl _) hl
  rw [List.take_length] at g2 g3
  have hk : k = arr.take len := (Prod.mk.inj he).1
  rw [hk]
  exact ⟨g2, g3⟩

theorem parseKey_only_drops_hostname_witness :
    parseKey (MockNewDogStatsdSink [] false) ["test_hostname", "test_hostname", "a"]
        = some (["test_hostname", "a"], []) ∧
      ((["test_hostname", "a"] : List String).Sublist ["test_hostname", "test_hostname", "a"] ∧
        (["test_hostname", "a"] : List String).filter
            (fun el => decide (el ≠ (MockNewDogStatsdSink [] false).hostnameGetter ()))
          = (["test_hostname", "test_hostname", "a"] : List String).filter
            (fun el => decide (el ≠ (MockNewDogStatsdSink [] false).hostnameGetter ()))) :=
  ⟨by decide,
    parseKey_only_drops_hostname (MockNewDogStatsdSink [] false)
      ["test_hostname", "test_hostname", "a"] ["test_hostname", "a"] [] (by decide)⟩

end metrics
